import Mathlib

/-!
Verification of `src/cod_exp.py` (curse-of-dimensionality experiment).

The program has a single function `exp_curse_of_dimensionality(save_path, show)`:
a numeric loop over a fixed dimension list computing pairwise-distance statistics
(lines 26-47), followed by a matplotlib rendering tail with optional save/show
and a `plt.close(fig)` (lines 50-89), plus a `__main__` guard calling the
function with no arguments (lines 91-92).

The numeric part is embedded over `ℝ` (the Python floats are modelled as exact
reals).  The effectful rendering tail is embedded as an explicit state-passing
function over a `World` record (global style, files written, show calls), with
the possibility that `fig.savefig` or `plt.show` raises modelled by two Boolean
parameters; an exceptional exit is a `none` result.  Randomness (`np.random.rand`)
is external to the program text, so the loop is parametrised by the sample set
it receives for each dimension.
-/

namespace CodExp

/-- Line 43: `eps = 1e-12`. -/
noncomputable def eps : ℝ := 1e-12

/-- Euclidean (L2) distance between two vectors, as computed by
`scipy.spatial.distance.pdist` for one pair of rows (line 36). -/
noncomputable def euclDist (u v : List ℝ) : ℝ :=
  Real.sqrt ((List.zipWith (fun a b => (a - b) ^ 2) u v).sum)

/-- Line 36: `dists = pdist(vectors)` — the condensed list of all unordered
pairwise Euclidean distances, pairs `(i, j)` with `i < j` in row order. -/
noncomputable def pdist : List (List ℝ) → List ℝ
  | [] => []
  | v :: rest => rest.map (euclDist v) ++ pdist rest

/-- Lines 36-44: the per-dimension distance reduction.  `dists.min()` /
`dists.max()` raise on an empty array, modelled by `none`; otherwise the
triple `(min_dist, max_dist, ratio)` with `ratio = max_dist / (min_dist + eps)`
is produced. -/
noncomputable def reduceSample (vectors : List (List ℝ)) : Option (ℝ × ℝ × ℝ) :=
  match pdist vectors with
  | [] => none
  | d :: ds =>
    let min_dist := ds.foldl min d
    let max_dist := ds.foldl max d
    some (min_dist, max_dist, max_dist / (min_dist + eps))

/-- Line 26: `dimensions = [2, 3, 192, 384, 768, 1536]`. -/
def dimensions : List ℕ := [2, 3, 192, 384, 768, 1536]

/-- Line 33: the sample size `np.random.rand(1000, dim)` draws per dimension. -/
def numSamples : ℕ := 1000

/-- One console line printed by line 47.  The three format fields record the
format spec applied to the corresponding float in the f-string: `".6g"` is
general format with 6 significant digits. -/
structure ConsoleLine where
  dim : ℕ
  minDist : ℝ
  maxDist : ℝ
  ratioShown : ℝ
  minFormat : String
  maxFormat : String
  ratioFormat : String

/-- The accumulators of the loop of lines 27-47: `ratios`, `min_dists`,
`max_dists`, and the console lines printed, all in iteration order. -/
structure LoopAcc where
  ratios : List ℝ
  min_dists : List ℝ
  max_dists : List ℝ
  console : List ConsoleLine

/-- Lines 31-47: the sampling/reduction loop over a dimension list.  The sample
set drawn for each dimension is supplied by `sample` (the program draws it from
an unseeded global random source).  A raise inside an iteration (empty distance
array) aborts the whole loop, modelled by `none`. -/
noncomputable def codLoop (sample : ℕ → List (List ℝ)) : List ℕ → Option LoopAcc
  | [] => some ⟨[], [], [], []⟩
  | dim :: rest => do
    let (m, M, r) ← reduceSample (sample dim)
    let acc ← codLoop sample rest
    pure ⟨r :: acc.ratios, m :: acc.min_dists, M :: acc.max_dists,
      ⟨dim, m, M, r, ".6g", ".6g", ".6g"⟩ :: acc.console⟩

/-- The process-wide state the function touches: the active matplotlib style,
the files written, and the number of `plt.show()` calls. -/
structure World where
  style : String
  savedFiles : List String
  showCalls : ℕ

/-- Line 50: the style name passed to `plt.style.use`. -/
def styleName : String := "seaborn-v0_8"

/-- Python truthiness of the `save_path` argument at line 81:
`None` and the empty string are falsy. -/
def truthy : Option String → Bool
  | none => false
  | some s => !s.isEmpty

/-- The outcome of one call of `exp_curse_of_dimensionality`: the world after
the call, whether the figure was created, whether `plt.close(fig)` ran, and —
on a normal (non-raising) return — the loop data together with the `(fig, ax)`
handles returned at line 89 (the single figure of the call has handle `0`).
`ret = none` means the call exited by a propagating exception. -/
structure RunResult where
  world : World
  figCreated : Bool
  figClosed : Bool
  ret : Option (LoopAcc × ℕ × ℕ)

/-- Default argument values of `exp_curse_of_dimensionality` (line 9):
`save_path: str | None = None`, `show: bool = True`. -/
def savePathDefault : Option String := none

/-- Default of the `show` parameter (line 9). -/
def showDefault : Bool := true

/-- Lines 9-89: `exp_curse_of_dimensionality(save_path, show)` as a state
transformer.  `saveRaises` / `showRaises` say whether `fig.savefig` /
`plt.show` would raise if called.  Control flow of the tail:
`plt.style.use` (line 50), figure creation (line 51), `if save_path:` save
(lines 81-83), `if show:` show (lines 85-86), `plt.close(fig)` (line 88),
`return fig, ax` (line 89).  There is no `try`/`finally`: a raise inside
save or show exits immediately with the state reached so far. -/
noncomputable def expCurse (sample : ℕ → List (List ℝ)) (saveRaises showRaises : Bool)
    (save_path : Option String) (showFlag : Bool) (w : World) : RunResult :=
  match codLoop sample dimensions with
  | none => ⟨w, false, false, none⟩
  | some acc =>
    let w1 : World := { w with style := styleName }
    if truthy save_path && saveRaises then
      ⟨w1, true, false, none⟩
    else
      let w2 : World :=
        if truthy save_path then
          { w1 with savedFiles := w1.savedFiles ++ [save_path.getD ""] }
        else w1
      if showFlag && showRaises then
        ⟨w2, true, false, none⟩
      else
        let w3 : World := if showFlag then { w2 with showCalls := w2.showCalls + 1 } else w2
        ⟨w3, true, true, some (acc, 0, 0)⟩

/-- Lines 91-92: the `__main__` entry point calls
`exp_curse_of_dimensionality()` with no arguments, so both parameters take
their declared defaults. -/
noncomputable def mainEntry (sample : ℕ → List (List ℝ)) (saveRaises showRaises : Bool)
    (w : World) : RunResult :=
  expCurse sample saveRaises showRaises savePathDefault showDefault w

/-- A concrete sample assignment used to exercise the embedding: every
dimension receives the two one-dimensional points `0` and `1`. -/
noncomputable def sampleW : ℕ → List (List ℝ) := fun _ => [[0], [1]]

/-- A concrete starting world: style `"default"`, no files, no show calls. -/
def w₀ : World := ⟨"default", [], 0⟩

/-- The ratio produced by the reducer on `sampleW`. -/
noncomputable def rateW : ℝ := 1 / (1 + eps)

/-- The loop accumulator produced by running the loop on `sampleW`. -/
noncomputable def accW : LoopAcc :=
  ⟨[rateW, rateW, rateW, rateW, rateW, rateW],
   [1, 1, 1, 1, 1, 1],
   [1, 1, 1, 1, 1, 1],
   [⟨2, 1, 1, rateW, ".6g", ".6g", ".6g"⟩, ⟨3, 1, 1, rateW, ".6g", ".6g", ".6g"⟩,
    ⟨192, 1, 1, rateW, ".6g", ".6g", ".6g"⟩, ⟨384, 1, 1, rateW, ".6g", ".6g", ".6g"⟩,
    ⟨768, 1, 1, rateW, ".6g", ".6g", ".6g"⟩, ⟨1536, 1, 1, rateW, ".6g", ".6g", ".6g"⟩]⟩

theorem eps_pos : 0 < eps := by unfold eps; norm_num

theorem foldl_min_le_init (d : ℝ) (ds : List ℝ) : ds.foldl min d ≤ d := by
  induction ds generalizing d with
  | nil => exact le_refl d
  | cons a xs ih => exact le_trans (ih (min d a)) (min_le_left d a)

theorem foldl_min_le_mem {x : ℝ} (d : ℝ) {ds : List ℝ} (hx : x ∈ ds) :
    ds.foldl min d ≤ x := by
  induction ds generalizing d with
  | nil => cases hx
  | cons a xs ih =>
    rw [List.foldl_cons]
    rcases List.mem_cons.mp hx with h | h
    · subst h
      exact le_trans (foldl_min_le_init (min d x) xs) (min_le_right d x)
    · exact ih (min d a) h

theorem foldl_min_mem (d : ℝ) (ds : List ℝ) : ds.foldl min d ∈ d :: ds := by
  induction ds generalizing d with
  | nil => simp
  | cons a xs ih =>
    rw [List.foldl_cons]
    have h := ih (min d a)
    rcases List.mem_cons.mp h with h1 | h1
    · rcases min_choice d a with h2 | h2
      · rw [h1, h2]
        exact List.mem_cons_self d (a :: xs)
      · rw [h1, h2]
        exact List.mem_cons_of_mem d (List.mem_cons_self a xs)
    · exact List.mem_cons_of_mem d (List.mem_cons_of_mem a h1)

theorem init_le_foldl_max (d : ℝ) (ds : List ℝ) : d ≤ ds.foldl max d := by
  induction ds generalizing d with
  | nil => exact le_refl d
  | cons a xs ih => exact le_trans (le_max_left d a) (ih (max d a))

theorem mem_le_foldl_max {x : ℝ} (d : ℝ) {ds : List ℝ} (hx : x ∈ ds) :
    x ≤ ds.foldl max d := by
  induction ds generalizing d with
  | nil => cases hx
  | cons a xs ih =>
    rw [List.foldl_cons]
    rcases List.mem_cons.mp hx with h | h
    · subst h
      exact le_trans (le_max_right d x) (init_le_foldl_max (max d x) xs)
    · exact ih (max d a) h

theorem foldl_max_mem (d : ℝ) (ds : List ℝ) : ds.foldl max d ∈ d :: ds := by
  induction ds generalizing d with
  | nil => simp
  | cons a xs ih =>
    rw [List.foldl_cons]
    have h := ih (max d a)
    rcases List.mem_cons.mp h with h1 | h1
    · rcases max_choice d a with h2 | h2
      · rw [h1, h2]
        exact List.mem_cons_self d (a :: xs)
      · rw [h1, h2]
        exact List.mem_cons_of_mem d (List.mem_cons_self a xs)
    · exact List.mem_cons_of_mem d (List.mem_cons_of_mem a h1)

theorem pdist_length (vs : List (List ℝ)) :
    2 * (pdist vs).length = vs.length * (vs.length - 1) := by
  induction vs with
  | nil => simp [pdist]
  | cons v rest ih =>
    have hlen : (pdist (v :: rest)).length = rest.length + (pdist rest).length := by
      simp [pdist]
    rw [hlen, List.length_cons, Nat.add_sub_cancel]
    cases rest with
    | nil => simp [pdist]
    | cons b t =>
      rw [List.length_cons] at ih ⊢
      rw [Nat.add_sub_cancel] at ih
      calc 2 * (t.length + 1 + (pdist (b :: t)).length)
          = 2 * (t.length + 1) + 2 * (pdist (b :: t)).length := by ring
        _ = 2 * (t.length + 1) + (t.length + 1) * t.length := by rw [ih]
        _ = (t.length + 1 + 1) * (t.length + 1) := by ring

theorem pdist_nonneg {vs : List (List ℝ)} {x : ℝ} (hx : x ∈ pdist vs) : 0 ≤ x := by
  induction vs with
  | nil => simp [pdist] at hx
  | cons v rest ih =>
    simp only [pdist, List.mem_append, List.mem_map] at hx
    rcases hx with ⟨u, _, hu⟩ | h
    · rw [← hu]; exact Real.sqrt_nonneg _
    · exact ih h

theorem pdist_ne_nil {vs : List (List ℝ)} (h : 2 ≤ vs.length) : pdist vs ≠ [] := by
  match vs with
  | [] => simp at h
  | [a] => simp at h
  | a :: b :: rest => simp [pdist]

theorem reduceSample_eq_some {vs : List (List ℝ)} (h : pdist vs ≠ []) :
    ∃ m M, reduceSample vs = some (m, M, M / (m + eps)) ∧
      m ∈ pdist vs ∧ (∀ x ∈ pdist vs, m ≤ x) ∧
      M ∈ pdist vs ∧ (∀ x ∈ pdist vs, x ≤ M) := by
  rcases hd : pdist vs with _ | ⟨d, ds⟩
  · exact absurd hd h
  · refine ⟨ds.foldl min d, ds.foldl max d, ?_, ?_, ?_, ?_, ?_⟩
    · simp [reduceSample, hd]
    · exact foldl_min_mem d ds
    · intro x hx
      rcases List.mem_cons.mp hx with h1 | h1
      · rw [h1]
        exact foldl_min_le_init d ds
      · exact foldl_min_le_mem d h1
    · exact foldl_max_mem d ds
    · intro x hx
      rcases List.mem_cons.mp hx with h1 | h1
      · rw [h1]
        exact init_le_foldl_max d ds
      · exact mem_le_foldl_max d h1

theorem reduceSample_inv {vs : List (List ℝ)} {m M r : ℝ}
    (h : reduceSample vs = some (m, M, r)) :
    0 ≤ m ∧ m ≤ M ∧ M ∈ pdist vs ∧ r = M / (m + eps) := by
  rcases hd : pdist vs with _ | ⟨d, ds⟩
  · simp [reduceSample, hd] at h
  · simp only [reduceSample, hd, Option.some_inj, Prod.mk.injEq] at h
    obtain ⟨hm, hM, hr⟩ := h
    subst hm
    subst hM
    subst hr
    refine ⟨?_, ?_, ?_, rfl⟩
    · have hmem : ds.foldl min d ∈ pdist vs := by
        rw [hd]
        exact foldl_min_mem d ds
      exact pdist_nonneg hmem
    · exact le_trans (foldl_min_le_init d ds) (init_le_foldl_max d ds)
    · exact foldl_max_mem d ds

theorem euclDist_00 : euclDist [(0 : ℝ)] [0] = 0 := by
  simp [euclDist]

theorem euclDist_01 : euclDist [(0 : ℝ)] [1] = 1 := by
  have h : ((0 : ℝ) - 1) ^ 2 + 0 = 1 := by norm_num
  simp only [euclDist, List.zipWith, List.sum_cons, List.sum_nil, h]
  exact Real.sqrt_one

theorem reduceSample_W : reduceSample [[(0 : ℝ)], [1]] = some (1, 1, 1 / (1 + eps)) := by
  have hp : pdist [[(0 : ℝ)], [1]] = [1] := by
    simp [pdist, euclDist_01]
  simp [reduceSample, hp]

theorem reduceSample_dup :
    reduceSample [[(0 : ℝ)], [0], [1]] = some (0, 1, 1 / (0 + eps)) := by
  have hp : pdist [[(0 : ℝ)], [0], [1]] = [0, 1, 1] := by
    simp [pdist, euclDist_00, euclDist_01]
  have hmin : ([(1 : ℝ), 1]).foldl min 0 = 0 := by
    simp [List.foldl_cons, min_def]
  have hmax : ([(1 : ℝ), 1]).foldl max 0 = 1 := by
    simp [List.foldl_cons, max_def]
  simp [reduceSample, hp, hmin, hmax]

/-- Specification of the loop of lines 31-47 over an arbitrary dimension list:
when every iteration's distance array is nonempty, the loop succeeds, every
accumulator has one entry per dimension in list order, and the entry at
position `i` is the reduction of the sample drawn for the dimension at
position `i`. -/
theorem codLoop_spec (sample : ℕ → List (List ℝ)) (dims : List ℕ)
    (h : ∀ d ∈ dims, pdist (sample d) ≠ []) :
    ∃ acc, codLoop sample dims = some acc ∧
      acc.ratios.length = dims.length ∧
      acc.min_dists.length = dims.length ∧
      acc.max_dists.length = dims.length ∧
      acc.console.length = dims.length ∧
      ∀ i, i < dims.length →
        ∃ m M, reduceSample (sample dims[i]!) = some (m, M, M / (m + eps)) ∧
          acc.ratios[i]? = some (M / (m + eps)) ∧
          acc.min_dists[i]? = some m ∧
          acc.max_dists[i]? = some M ∧
          acc.console[i]? = some ⟨dims[i]!, m, M, M / (m + eps), ".6g", ".6g", ".6g"⟩ := by
  induction dims with
  | nil =>
    refine ⟨⟨[], [], [], []⟩, ?_, ?_, ?_, ?_, ?_, ?_⟩ <;> simp [codLoop]
  | cons dim rest ih =>
    obtain ⟨m, M, hsome, _⟩ :=
      reduceSample_eq_some (h dim (List.mem_cons_self dim rest))
    obtain ⟨acc, hacc, hl1, hl2, hl3, hl4, hidx⟩ :=
      ih (fun d hd => h d (List.mem_cons_of_mem dim hd))
    refine ⟨⟨(M / (m + eps)) :: acc.ratios, m :: acc.min_dists, M :: acc.max_dists,
      ⟨dim, m, M, M / (m + eps), ".6g", ".6g", ".6g"⟩ :: acc.console⟩, ?_, ?_, ?_, ?_, ?_, ?_⟩
    · simp [codLoop, hsome, hacc]
    · simp [hl1]
    · simp [hl2]
    · simp [hl3]
    · simp [hl4]
    · intro i hi
      cases i with
      | zero =>
        refine ⟨m, M, ?_, ?_, ?_, ?_, ?_⟩ <;> simp [hsome]
      | succ j =>
        have hj : j < rest.length := by
          simpa using Nat.lt_of_succ_lt_succ hi
        obtain ⟨m', M', hred, hr, hmn, hmx, hcn⟩ := hidx j hj
        refine ⟨m', M', ?_, ?_, ?_, ?_, ?_⟩
        · simpa using hred
        · simpa using hr
        · simpa using hmn
        · simpa using hmx
        · simpa using hcn

theorem codLoop_W : codLoop sampleW dimensions = some accW := by
  simp [codLoop, dimensions, sampleW, reduceSample_W, accW, rateW]

/-- C1: for every sample set of at least two vectors, the Distance Reducer
computes the minimum and the maximum over all N·(N-1)/2 unordered pairwise
Euclidean distances and returns the triple `(min, max, ratio)` with
`ratio = max / (min + eps)` and `eps = 1e-12`. -/
theorem claim_C1_reducer (vs : List (List ℝ)) (h : 2 ≤ vs.length) :
    eps = 1e-12 ∧
    2 * (pdist vs).length = vs.length * (vs.length - 1) ∧
    (pdist vs).length = vs.length * (vs.length - 1) / 2 ∧
    ∃ m M, reduceSample vs = some (m, M, M / (m + eps)) ∧
      m ∈ pdist vs ∧ (∀ x ∈ pdist vs, m ≤ x) ∧
      M ∈ pdist vs ∧ (∀ x ∈ pdist vs, x ≤ M) := by
  refine ⟨rfl, pdist_length vs, ?_, reduceSample_eq_some (pdist_ne_nil h)⟩
  have hx : vs.length * (vs.length - 1) = (pdist vs).length * 2 := by
    rw [← pdist_length vs]
    ring
  exact (Nat.div_eq_of_eq_mul_left (by norm_num) hx).symm

theorem claim_C1_witness :
    2 ≤ ([[(0 : ℝ)], [1]] : List (List ℝ)).length ∧
    (eps = 1e-12 ∧
      2 * (pdist [[(0 : ℝ)], [1]]).length =
        ([[(0 : ℝ)], [1]] : List (List ℝ)).length *
          (([[(0 : ℝ)], [1]] : List (List ℝ)).length - 1) ∧
      (pdist [[(0 : ℝ)], [1]]).length =
        ([[(0 : ℝ)], [1]] : List (List ℝ)).length *
          (([[(0 : ℝ)], [1]] : List (List ℝ)).length - 1) / 2 ∧
      ∃ m M, reduceSample [[(0 : ℝ)], [1]] = some (m, M, M / (m + eps)) ∧
        m ∈ pdist [[(0 : ℝ)], [1]] ∧ (∀ x ∈ pdist [[(0 : ℝ)], [1]], m ≤ x) ∧
        M ∈ pdist [[(0 : ℝ)], [1]] ∧ (∀ x ∈ pdist [[(0 : ℝ)], [1]], x ≤ M)) :=
  ⟨by simp, claim_C1_reducer [[(0 : ℝ)], [1]] (by simp)⟩

/-- C2 (counterexample): the sample set `[[0], [1]]` has two distinct points,
yet the computed ratio is `1 / (1 + eps) < 1`, so "ratio ≥ 1 for every sample
set with at least 2 distinct points" is false of the code: the `eps` added to
the denominator pushes the ratio strictly below `max / min` whenever
`min > 0`. -/
theorem claim_C2_counterexample :
    ([(0 : ℝ)] ≠ ([1] : List ℝ)) ∧
    reduceSample [[(0 : ℝ)], [1]] = some (1, 1, 1 / (1 + eps)) ∧
    1 / (1 + eps) < 1 := by
  refine ⟨by simp, reduceSample_W, ?_⟩
  have h := eps_pos
  rw [div_lt_one (by linarith)]
  linarith

/-- C2 (amended): for every sample set on which the reducer succeeds, the
computed ratio equals `max / (min + eps)`, is nonnegative, and is at least
`max / (max + eps)`; the floor `ratio ≥ 1` claimed by the spec does not hold
because the `eps` guard makes the denominator strictly larger than `min`. -/
theorem claim_C2_amended (vs : List (List ℝ)) (m M r : ℝ)
    (h : reduceSample vs = some (m, M, r)) :
    r = M / (m + eps) ∧ M / (M + eps) ≤ r ∧ 0 ≤ r := by
  obtain ⟨hm0, hmM, hMmem, hr⟩ := reduceSample_inv h
  have hM0 : 0 ≤ M := le_trans hm0 hmM
  have hden : 0 < m + eps := by linarith [eps_pos]
  subst hr
  refine ⟨rfl, ?_, ?_⟩
  · exact div_le_div_of_nonneg_left hM0 hden (by linarith)
  · exact div_nonneg hM0 (le_of_lt hden)

theorem claim_C2_witness :
    (1 : ℝ) / (1 + eps) = 1 / (1 + eps) ∧
    (1 : ℝ) / (1 + eps) ≤ 1 / (1 + eps) ∧
    (0 : ℝ) ≤ 1 / (1 + eps) :=
  claim_C2_amended [[(0 : ℝ)], [1]] 1 1 (1 / (1 + eps)) reduceSample_W

/-- C4: if the minimum distance is exactly 0 (duplicate points) and the
maximum distance is positive, the `eps` guard makes the denominator nonzero,
so no division by zero occurs, and the computed ratio equals
`max / 1e-12` and is positive (hence finite). -/
theorem claim_C4_guard (vs : List (List ℝ)) (m M r : ℝ)
    (h : reduceSample vs = some (m, M, r)) (hm : m = 0) (hM : 0 < M) :
    m + eps ≠ 0 ∧ r = M / (1e-12 : ℝ) ∧ 0 < r := by
  obtain ⟨hm0, hmM, hMmem, hr⟩ := reduceSample_inv h
  subst hm
  have hden : (0 : ℝ) + eps ≠ 0 := ne_of_gt (by linarith [eps_pos])
  refine ⟨hden, ?_, ?_⟩
  · rw [hr, zero_add]
    rfl
  · rw [hr, zero_add]
    exact div_pos hM eps_pos

theorem claim_C4_witness :
    ((0 : ℝ) + eps ≠ 0) ∧
    (1 : ℝ) / (0 + eps) = 1 / (1e-12 : ℝ) ∧
    (0 : ℝ) < 1 / (0 + eps) :=
  claim_C4_guard [[(0 : ℝ)], [0], [1]] 0 1 (1 / (0 + eps)) reduceSample_dup rfl
    (by norm_num)

/-- C5: the result sequence of ratios has exactly the length of the fixed
dimension list `[2, 3, 192, 384, 768, 1536]` (6 entries), and the entry at
index `i` is the ratio the reducer computes for the sample drawn for the
dimension at index `i`, in list order. -/
theorem claim_C5_alignment (sample : ℕ → List (List ℝ))
    (h : ∀ d ∈ dimensions, 2 ≤ (sample d).length) :
    dimensions = [2, 3, 192, 384, 768, 1536] ∧
    dimensions.length = 6 ∧
    ∃ acc, codLoop sample dimensions = some acc ∧
      acc.ratios.length = dimensions.length ∧
      ∀ i, i < dimensions.length →
        ∃ m M, reduceSample (sample dimensions[i]!) = some (m, M, M / (m + eps)) ∧
          acc.ratios[i]? = some (M / (m + eps)) := by
  refine ⟨rfl, rfl, ?_⟩
  obtain ⟨acc, hacc, hl1, _, _, _, hidx⟩ :=
    codLoop_spec sample dimensions (fun d hd => pdist_ne_nil (h d hd))
  refine ⟨acc, hacc, hl1, fun i hi => ?_⟩
  obtain ⟨m, M, hred, hr, _, _, _⟩ := hidx i hi
  exact ⟨m, M, hred, hr⟩

theorem claim_C5_witness :
    (∀ d ∈ dimensions, 2 ≤ (sampleW d).length) ∧
    (dimensions = [2, 3, 192, 384, 768, 1536] ∧
      dimensions.length = 6 ∧
      ∃ acc, codLoop sampleW dimensions = some acc ∧
        acc.ratios.length = dimensions.length ∧
        ∀ i, i < dimensions.length →
          ∃ m M, reduceSample (sampleW dimensions[i]!) = some (m, M, M / (m + eps)) ∧
            acc.ratios[i]? = some (M / (m + eps))) :=
  ⟨fun d _ => by simp [sampleW], claim_C5_alignment sampleW (fun d _ => by simp [sampleW])⟩

/-- C9: for each dimension of the fixed list the loop emits exactly one
console line (so 6 lines in total, one per loop index), and the line at index
`i` reports the dimension at index `i` together with the minimum distance,
the maximum distance and the ratio of that iteration, the three floats being
formatted with the `".6g"` format spec — general format with 6 significant
digits. -/
theorem claim_C9_console (sample : ℕ → List (List ℝ))
    (h : ∀ d ∈ dimensions, 2 ≤ (sample d).length) :
    ∃ acc, codLoop sample dimensions = some acc ∧
      acc.console.length = dimensions.length ∧
      ∀ i, i < dimensions.length →
        ∃ m M, reduceSample (sample dimensions[i]!) = some (m, M, M / (m + eps)) ∧
          acc.console[i]? =
            some ⟨dimensions[i]!, m, M, M / (m + eps), ".6g", ".6g", ".6g"⟩ := by
  obtain ⟨acc, hacc, _, _, _, hl4, hidx⟩ :=
    codLoop_spec sample dimensions (fun d hd => pdist_ne_nil (h d hd))
  refine ⟨acc, hacc, hl4, fun i hi => ?_⟩
  obtain ⟨m, M, hred, _, _, _, hcn⟩ := hidx i hi
  exact ⟨m, M, hred, hcn⟩

theorem claim_C9_witness :
    (∀ d ∈ dimensions, 2 ≤ (sampleW d).length) ∧
    (∃ acc, codLoop sampleW dimensions = some acc ∧
      acc.console.length = dimensions.length ∧
      ∀ i, i < dimensions.length →
        ∃ m M, reduceSample (sampleW dimensions[i]!) = some (m, M, M / (m + eps)) ∧
          acc.console[i]? =
            some ⟨dimensions[i]!, m, M, M / (m + eps), ".6g", ".6g", ".6g"⟩) :=
  ⟨fun d _ => by simp [sampleW], claim_C9_console sampleW (fun d _ => by simp [sampleW])⟩

/-- C3 (counterexample): with a non-empty `save_path` and a raising
`fig.savefig`, the call exits by exception with the figure created but not
closed, so "the figure resource is released on every exit path, including the
paths where saving or displaying raises" is false of the code: `plt.close(fig)`
at line 88 is plain straight-line code, not a `finally` block. -/
theorem claim_C3_counterexample :
    (expCurse sampleW true false (some "plot.png") false w₀).figCreated = true ∧
    (expCurse sampleW true false (some "plot.png") false w₀).ret = none ∧
    (expCurse sampleW true false (some "plot.png") false w₀).figClosed = false := by
  have ht : truthy (some "plot.png") = true := rfl
  refine ⟨?_, ?_, ?_⟩ <;> simp [expCurse, codLoop_W, ht]

/-- C3 (amended): the figure is closed exactly on the normal (non-raising)
exit paths of the run operation: `plt.close(fig)` has run if and only if the
call returns normally; on the exit paths where saving or displaying raises,
the figure is not closed before the exception propagates. -/
theorem claim_C3_amended (sample : ℕ → List (List ℝ)) (saveRaises showRaises : Bool)
    (sp : Option String) (sf : Bool) (w : World) :
    (expCurse sample saveRaises showRaises sp sf w).figClosed =
      (expCurse sample saveRaises showRaises sp sf w).ret.isSome := by
  rcases hc : codLoop sample dimensions with _ | acc
  · simp [expCurse, hc]
  · simp only [expCurse, hc]
    split_ifs <;> simp

/-- C6 (counterexample): a normal run started with global style `"default"`
ends with global style `"seaborn-v0_8"`, so "the process-wide plotting style
is unchanged after the run operation returns" is false of the code:
`plt.style.use("seaborn-v0_8")` at line 50 is a global mutation that is never
reverted. -/
theorem claim_C6_counterexample :
    (expCurse sampleW false false none false w₀).ret.isSome = true ∧
    w₀.style = "default" ∧
    (expCurse sampleW false false none false w₀).world.style = "seaborn-v0_8" ∧
    ("seaborn-v0_8" : String) ≠ "default" := by
  refine ⟨?_, rfl, ?_, ?_⟩
  · simp [expCurse, codLoop_W, truthy]
  · simp [expCurse, codLoop_W, truthy, styleName]
  · decide

/-- C6 (amended): on every run in which the loop completes (so that control
reaches line 50), the process-wide plotting style after the call — normal or
raising — is `"seaborn-v0_8"`, regardless of the style before the call: the
style mutation leaks to the caller. -/
theorem claim_C6_amended (sample : ℕ → List (List ℝ)) (saveRaises showRaises : Bool)
    (sp : Option String) (sf : Bool) (w : World)
    (h : (codLoop sample dimensions).isSome = true) :
    (expCurse sample saveRaises showRaises sp sf w).world.style = styleName := by
  obtain ⟨acc, hacc⟩ := Option.isSome_iff_exists.mp h
  simp only [expCurse, hacc]
  split_ifs <;> simp

theorem claim_C6_witness :
    (expCurse sampleW false false none false w₀).world.style = styleName :=
  claim_C6_amended sampleW false false none false w₀ (by simp [codLoop_W])

/-- C7: with `save_path` absent (`None`) or empty, no file is written — the
file system part of the world is unchanged; with a non-empty `save_path` and
a non-raising `savefig`, on any run whose loop completes exactly the file at
that path is written. -/
theorem claim_C7_save (sample : ℕ → List (List ℝ)) (saveRaises showRaises : Bool)
    (sf : Bool) (w : World) (p : String) :
    (expCurse sample saveRaises showRaises none sf w).world.savedFiles = w.savedFiles ∧
    (expCurse sample saveRaises showRaises (some "") sf w).world.savedFiles = w.savedFiles ∧
    (p ≠ "" → (codLoop sample dimensions).isSome = true →
      (expCurse sample false showRaises (some p) sf w).world.savedFiles =
        w.savedFiles ++ [p]) := by
  refine ⟨?_, ?_, ?_⟩
  · rcases hc : codLoop sample dimensions with _ | acc
    · simp [expCurse, hc]
    · have ht : truthy none = false := rfl
      simp only [expCurse, hc, ht]
      split_ifs <;> simp_all
  · rcases hc : codLoop sample dimensions with _ | acc
    · simp [expCurse, hc]
    · have ht : truthy (some "") = false := rfl
      simp only [expCurse, hc, ht]
      split_ifs <;> simp_all
  · intro hp h
    obtain ⟨acc, hacc⟩ := Option.isSome_iff_exists.mp h
    have ht : truthy (some p) = true := by
      cases hb : p.isEmpty with
      | false => simp [truthy, hb]
      | true => exact absurd ((String.isEmpty_iff p).mp hb) hp
    simp only [expCurse, hacc, ht]
    split_ifs <;> simp_all

theorem claim_C7_witness :
    (expCurse sampleW false false (some "out.png") false w₀).world.savedFiles =
      w₀.savedFiles ++ ["out.png"] :=
  (claim_C7_save sampleW false false false w₀ "out.png").2.2 (by decide)
    (by simp [codLoop_W])

/-- C8: the `__main__` entry point calls the run operation with the declared
defaults `save_path = None`, `show = True`; and on every run that returns
normally, `show = true` performs exactly one interactive presentation while
`show = false` performs none. -/
theorem claim_C8_entry (sample : ℕ → List (List ℝ)) (saveRaises showRaises : Bool)
    (w : World) (sp : Option String) (sf : Bool) :
    mainEntry sample saveRaises showRaises w =
      expCurse sample saveRaises showRaises none true w ∧
    ((expCurse sample saveRaises showRaises sp sf w).ret.isSome = true →
      (expCurse sample saveRaises showRaises sp sf w).world.showCalls =
        (if sf then w.showCalls + 1 else w.showCalls)) := by
  refine ⟨rfl, ?_⟩
  intro h
  rcases hc : codLoop sample dimensions with _ | acc
  · simp [expCurse, hc] at h
  · simp only [expCurse, hc] at h ⊢
    split_ifs at h ⊢ <;> simp_all

theorem claim_C8_witness :
    (expCurse sampleW false false none true w₀).world.showCalls =
      (if true then w₀.showCalls + 1 else w₀.showCalls) :=
  (claim_C8_entry sampleW false false w₀ none true).2
    (by simp [expCurse, codLoop_W, truthy])

/-- C10: on every normal (non-raising) return of the run operation, the
`(fig, ax)` pair handed back refers to the single figure the call created
(both handles are those of that figure), and `plt.close` has already been
invoked on that figure before the return. -/
theorem claim_C10_closed (sample : ℕ → List (List ℝ)) (saveRaises showRaises : Bool)
    (sp : Option String) (sf : Bool) (w : World)
    (h : (expCurse sample saveRaises showRaises sp sf w).ret.isSome = true) :
    (expCurse sample saveRaises showRaises sp sf w).figClosed = true ∧
    ∃ acc, (expCurse sample saveRaises showRaises sp sf w).ret = some (acc, 0, 0) := by
  rcases hc : codLoop sample dimensions with _ | acc'
  · simp [expCurse, hc] at h
  · simp only [expCurse, hc] at h ⊢
    split_ifs at h ⊢ <;> simp_all

theorem claim_C10_witness :
    (expCurse sampleW false false none false w₀).figClosed = true ∧
    ∃ acc, (expCurse sampleW false false none false w₀).ret = some (acc, 0, 0) :=
  claim_C10_closed sampleW false false none false w₀
    (by simp [expCurse, codLoop_W, truthy])

end CodExp
